import Mathlib

/-!
Verification of the FPVS Data Processor pipeline (v1.20 revision).

The definitions below are a shallow embedding of the Python source:
machine doubles are modelled as dyadic rationals (an integer mantissa and
a power-of-two exponent) with an explicit round-to-nearest-even step of
the mantissa to 53 significant bits after every arithmetic operation;
numpy arrays become lists or index functions over `ℚ`; fallible stages
return `Option`/`Except`.
-/

namespace FPVS

/-- A dyadic rational `m * 2 ^ e`, the exact value of an IEEE-754
binary64 number.  Exponents are unbounded: the pipeline never reaches
the overflow or subnormal range. -/
structure Dy where
  m : ℤ
  e : ℤ
deriving DecidableEq

/-- The exact rational value of a dyadic number. -/
def Dy.toRat (x : Dy) : ℚ := (x.m : ℚ) * (2 : ℚ) ^ x.e

/-- Number of binary digits of a natural number (`0` for `0`), computed
with a structural fuel argument so that it evaluates inside the kernel;
the fuel `1000` covers every mantissa produced in this development. -/
def bitLenAux : ℕ → ℕ → ℕ
  | 0, _ => 0
  | f + 1, n => if n = 0 then 0 else bitLenAux f (n / 2) + 1

/-- Number of binary digits of a natural number. -/
def bitLen (n : ℕ) : ℕ := bitLenAux 1000 n

/-- Round a positive mantissa to at most 53 significant bits,
nearest-even; returns the rounded mantissa and the number of bits
dropped (to be added to the exponent). -/
def roundMant (n : ℕ) : ℕ × ℕ :=
  let L := bitLen n
  if L ≤ 53 then (n, 0)
  else
    let k := L - 53
    let p := 2 ^ k
    let q := n / p
    let r := n % p
    let q2 :=
      if 2 * r < p then q
      else if 2 * r > p then q + 1
      else if q % 2 = 0 then q else q + 1
    (q2, k)

/-- Round a dyadic value to the nearest binary64 value (53-bit mantissa,
ties to even). -/
def roundDy (x : Dy) : Dy :=
  if x.m = 0 then ⟨0, 0⟩
  else
    let p := roundMant x.m.natAbs
    ⟨if x.m < 0 then -(p.1 : ℤ) else (p.1 : ℤ), x.e + (p.2 : ℤ)⟩

/-- Exact sum of two dyadic values (before rounding). -/
def rawAdd (a b : Dy) : Dy :=
  if a.e ≤ b.e then ⟨a.m + b.m * 2 ^ (b.e - a.e).toNat, a.e⟩
  else ⟨b.m + a.m * 2 ^ (a.e - b.e).toNat, b.e⟩

/-- Binary64 addition: exact sum, then one rounding. -/
def dyAdd (a b : Dy) : Dy := roundDy (rawAdd a b)

/-- Binary64 negation (exact). -/
def dyNeg (a : Dy) : Dy := ⟨-a.m, a.e⟩

/-- Binary64 subtraction: exact difference, then one rounding. -/
def dySub (a b : Dy) : Dy := dyAdd a (dyNeg b)

/-- Binary64 multiplication: exact product, then one rounding. -/
def dyMul (a b : Dy) : Dy := roundDy ⟨a.m * b.m, a.e + b.e⟩

/-- Correctly rounded binary64 value of `(u / v) * 2 ^ E` for positive
naturals `u`, `v`: the quotient is computed with enough guard bits that
the final 53-bit nearest-even rounding (with an exact tie test via the
division remainder) agrees with the rounding of the exact real
quotient. -/
def divRoundPos (u v : ℕ) (E : ℤ) : Dy :=
  let t : ℤ := 54 + (bitLen v : ℤ) - (bitLen u : ℤ)
  let bigU : ℕ := u * 2 ^ t.toNat
  let bigV : ℕ := v * 2 ^ (-t).toNat
  let q0 := bigU / bigV
  let r0 := bigU % bigV
  let k := bitLen q0 - 53
  let p := 2 ^ k
  let q := q0 / p
  let r := q0 % p
  let q2 :=
    if 2 * r < p then q
    else if 2 * r > p then q + 1
    else if r0 = 0 then (if q % 2 = 0 then q else q + 1) else q + 1
  ⟨(q2 : ℤ), E - t + (k : ℤ)⟩

/-- Binary64 division: exact quotient, then one rounding. -/
def dyDiv (a b : Dy) : Dy :=
  if a.m = 0 ∨ b.m = 0 then ⟨0, 0⟩
  else
    let d := divRoundPos a.m.natAbs b.m.natAbs (a.e - b.e)
    if (a.m < 0) ≠ (b.m < 0) then ⟨-d.m, d.e⟩ else d

/-- The binary64 value of the decimal fraction `n / d` (how a Python
float literal is parsed: correctly rounded to nearest). -/
def dyOfFrac (n d : ℕ) : Dy :=
  if n = 0 then ⟨0, 0⟩ else divRoundPos n d 0

/-- The binary64 value of a small natural number (exact for `n < 2^53`). -/
def dyOfNat (n : ℕ) : Dy := ⟨(n : ℤ), 0⟩

/-- Ceiling of a dyadic value as an integer. -/
def dyCeil (x : Dy) : ℤ :=
  if 0 ≤ x.e then x.m * 2 ^ x.e.toNat
  else
    let p : ℤ := 2 ^ (-x.e).toNat
    (x.m + p - 1).fdiv p

/-- Length of `np.arange(start, stop, step)` for binary64 arguments:
`ceil((stop - start) / step)` evaluated in binary64 arithmetic,
clamped at zero. -/
def arangeLen (start stop step : Dy) : ℕ :=
  let d := dyDiv (dySub stop start) step
  if d.m ≤ 0 then 0 else (dyCeil d).toNat

/-- The list `np.arange(start, stop, step)` for binary64 arguments:
element `i` is `start + i * step` evaluated in binary64 arithmetic. -/
def arangeDy (start stop step : Dy) : List Dy :=
  (List.range (arangeLen start stop step)).map
    (fun i => dyAdd start (dyMul (dyOfNat i) step))

/-- The binary64 value of the Python literal `1.2`. -/
def lit_1_2 : Dy := dyOfFrac 12 10

/-- The binary64 value of the Python literal `16.8`. -/
def lit_16_8 : Dy := dyOfFrac 168 10

/-- The fixed list `TARGET_FREQUENCIES = np.arange(1.2, 16.8 + 1.2, 1.2)`
of the source, as binary64 values — the sum `16.8 + 1.2` is evaluated in
binary64 arithmetic before the call. -/
def targetFreqsDy : List Dy := arangeDy lit_1_2 (dyAdd lit_16_8 lit_1_2) lit_1_2

/-- The target-frequency list as exact rational values. -/
def TARGET_FREQUENCIES : List ℚ := targetFreqsDy.map Dy.toRat

/-!
Spectral metric engine: the inner loop of `post_process` (the v1.20
revision that averages epochs in the time domain and takes a single FFT).
Amplitude values, which the claims treat symbolically, are idealised as
exact rationals; `sqrtFn` abstracts the square root taken by `np.std`
(every theorem below holds for an arbitrary `sqrtFn`).
-/

/-- First index of the element of `l` minimising `|x - t|`
(`np.argmin(np.abs(freqs - t_freq))`): auxiliary loop carrying the
current position, best index and best value. -/
def argminAbsGo (t : ℚ) : List ℚ → ℕ → ℕ → ℚ → ℕ
  | [], _, best, _ => best
  | x :: xs, i, best, bv =>
    if |x - t| < bv then argminAbsGo t xs (i + 1) i |x - t|
    else argminAbsGo t xs (i + 1) best bv

/-- First index of the element of `l` minimising `|x - t|`. -/
def argminAbs (t : ℚ) (l : List ℚ) : ℕ :=
  match l with
  | [] => 0
  | x :: xs => argminAbsGo t xs 1 0 |x - t|

/-- The noise-neighbourhood index list for target bin `tbin` in a
spectrum of `n` bins: `[i for i in range(t_bin - 12, t_bin + 13)
if 0 <= i < len(freqs) and i not in {t_bin - 2, t_bin - 1, t_bin}]`. -/
def noiseIdx (tbin : ℤ) (n : ℕ) : List ℤ :=
  ((List.range 25).map (fun j : ℕ => tbin - 12 + (j : ℤ))).filter
    (fun i => 0 ≤ i ∧ i < (n : ℤ) ∧ i ≠ tbin - 2 ∧ i ≠ tbin - 1 ∧ i ≠ tbin)

/-- Arithmetic mean of a list of rationals (`np.mean`). -/
def qMean (l : List ℚ) : ℚ := l.sum / (l.length : ℚ)

/-- Population variance of a list of rationals; `np.std` is
`sqrtFn ∘ qVar`. -/
def qVar (l : List ℚ) : ℚ :=
  ((l.map (fun x => (x - qMean l) ^ 2)).sum) / (l.length : ℚ)

/-- Noise mean and noise standard deviation over the neighbourhood
`idx`: computed only when at least 4 usable bins remain, otherwise both
are recorded as zero. -/
def noiseStats (sqrtFn : ℚ → ℚ) (amp : ℕ → ℚ) (idx : List ℤ) : ℚ × ℚ :=
  if 4 ≤ idx.length then
    let vals := idx.map (fun i => amp i.toNat)
    (qMean vals, sqrtFn (qVar vals))
  else (0, 0)

/-- The literal `1e-12` guarding the SNR and Z divisions (idealised as
the exact rational). -/
def EPS : ℚ := 1 / 10 ^ 12

/-- Maximum amplitude over the slice
`[max(0, t_bin - 1), min(len(freqs), t_bin + 2))` — the target bin and
its immediate one-bin neighbours, clipped to the spectrum. -/
def localPeak (amp : ℕ → ℚ) (tbin n : ℕ) : ℚ :=
  let lo := tbin - 1
  let hi := min n (tbin + 2)
  ((List.range (hi - lo)).map (fun j => amp (lo + j))).foldl max (amp lo)

/-- The four metric values at one (channel, target-frequency) cell. -/
structure CellVals where
  amp : ℚ
  snr : ℚ
  z : ℚ
  bca : ℚ
deriving DecidableEq

/-- The noise mean and standard deviation used at the cell of target
frequency `tfreq`: the statistics over the noise neighbourhood of the
nearest bin. -/
def cellNoise (sqrtFn : ℚ → ℚ) (freqs : List ℚ) (amp : ℕ → ℚ)
    (tfreq : ℚ) : ℚ × ℚ :=
  noiseStats sqrtFn amp (noiseIdx ((argminAbs tfreq freqs : ℕ) : ℤ) freqs.length)

/-- One cell of the metric computation: out-of-range targets keep the
`np.zeros` defaults; otherwise the amplitude, SNR, Z and BCA values at
the nearest bin, with the division guards of the source. -/
def metricCell (sqrtFn : ℚ → ℚ) (freqs : List ℚ) (amp : ℕ → ℚ)
    (tfreq : ℚ) : CellVals :=
  if freqs.headD 0 ≤ tfreq ∧ tfreq ≤ freqs.getLastD 0 then
    let tbin : ℕ := argminAbs tfreq freqs
    let st := cellNoise sqrtFn freqs amp tfreq
    let ampv := amp tbin
    let snrv := if EPS < st.1 then ampv / st.1 else 0
    let peak := localPeak amp tbin freqs.length
    let zv := if EPS < st.2 then (peak - st.1) / st.2 else 0
    ⟨ampv, snrv, zv, ampv - st.1⟩
  else ⟨0, 0, 0, 0⟩

/-- A rectangular matrix of rationals, rows of channels by columns of
target frequencies. -/
abbrev Mat : Type := List (List ℚ)

/-- The quadruple of per-(file,label) metric matrices. -/
structure MetricQuad where
  fft : Mat
  snr : Mat
  z : Mat
  bca : Mat

/-- The full metric computation for one (file, label): one row per
retained channel, one column per target frequency, four matrices. -/
def computeMetrics (sqrtFn : ℚ → ℚ) (nch : ℕ) (freqs : List ℚ)
    (fftVals : ℕ → ℕ → ℚ) : MetricQuad :=
  { fft := (List.range nch).map (fun c =>
      TARGET_FREQUENCIES.map (fun tf => (metricCell sqrtFn freqs (fftVals c) tf).amp))
    snr := (List.range nch).map (fun c =>
      TARGET_FREQUENCIES.map (fun tf => (metricCell sqrtFn freqs (fftVals c) tf).snr))
    z := (List.range nch).map (fun c =>
      TARGET_FREQUENCIES.map (fun tf => (metricCell sqrtFn freqs (fftVals c) tf).z))
    bca := (List.range nch).map (fun c =>
      TARGET_FREQUENCIES.map (fun tf => (metricCell sqrtFn freqs (fftVals c) tf).bca)) }

/-!
Cross-file aggregation: the accumulate / average logic of `post_process`.
Per-file outcomes are `Option MetricQuad`: `none` when the file was
skipped (invalid epochs, no good channels, or a caught exception),
`some` when its four matrices were accumulated.
-/

/-- Element-wise sum of two matrices (numpy `+=` on same-shaped arrays). -/
def matAdd (a b : Mat) : Mat := List.zipWith (List.zipWith (· + ·)) a b

/-- Element-wise division of a matrix by a file count. -/
def matDivNat (a : Mat) (k : ℕ) : Mat := a.map (List.map (· / (k : ℚ)))

/-- Element-wise sum of two metric quadruples. -/
def quadAdd (a b : MetricQuad) : MetricQuad :=
  ⟨matAdd a.fft b.fft, matAdd a.snr b.snr, matAdd a.z b.z, matAdd a.bca b.bca⟩

/-- Element-wise division of a metric quadruple by a file count. -/
def quadDivNat (a : MetricQuad) (k : ℕ) : MetricQuad :=
  ⟨matDivNat a.fft k, matDivNat a.snr k, matDivNat a.z k, matDivNat a.bca k⟩

/-- One accumulation step for a contributing file: the first
contributing file initialises the accumulator, later ones are added;
the valid count grows by one either way. -/
def accumStep (st : Option MetricQuad × ℕ) (q : MetricQuad) :
    Option MetricQuad × ℕ :=
  match st.1 with
  | none => (some q, st.2 + 1)
  | some acc => (some (quadAdd acc q), st.2 + 1)

/-- The accumulation loop over one label's per-file outcomes: skipped
files leave the accumulator and the valid count unchanged. -/
def accumFold (files : List (Option MetricQuad)) : Option MetricQuad × ℕ :=
  files.foldl
    (fun st f =>
      match f with
      | none => st
      | some q => accumStep st q)
    (none, 0)

/-- The per-label average: divide the accumulated quadruple by the count
of files that actually contributed, producing nothing (and performing no
division) when that count is zero. -/
def aggregateLabel (files : List (Option MetricQuad)) : Option MetricQuad :=
  match accumFold files with
  | (some acc, cnt) => if 0 < cnt then some (quadDivNat acc cnt) else none
  | (none, _) => none

/-- Entry `(i, j)` of a matrix, with numpy-style total access defaulting
to `0` outside the shape. -/
def entry (m : Mat) (i j : ℕ) : ℚ := (m.getD i []).getD j 0

/-- Shape predicate: `m` has `r` rows, each of length `c`. -/
def HasShape (m : Mat) (r c : ℕ) : Prop :=
  m.length = r ∧ ∀ i < r, (m.getD i []).length = c

instance (m : Mat) (r c : ℕ) : Decidable (HasShape m r c) := by
  unfold HasShape; infer_instance

/-- Shape predicate for a metric quadruple: all four matrices have `r`
rows of `c` columns. -/
def QuadShape (q : MetricQuad) (r c : ℕ) : Prop :=
  HasShape q.fft r c ∧ HasShape q.snr r c ∧ HasShape q.z r c ∧
    HasShape q.bca r c

instance (q : MetricQuad) (r c : ℕ) : Decidable (QuadShape q r c) := by
  unfold QuadShape; infer_instance

/-!
Results writer: path construction and sheet list of `post_process`
(the `valid_count > 0 and electrode_names` guard, the sanitised label
folder, and the `f"{pid} {safe_label}.xlsx"` file name).
-/

/-- Python `str.strip()` on a character list: drop leading and trailing
whitespace. -/
def pyStrip (l : List Char) : List Char :=
  ((l.dropWhile Char.isWhitespace).reverse.dropWhile Char.isWhitespace).reverse

/-- The sanitised condition label: `cond_label.replace('/', '-').strip()`
(a single-character replace is a character map). -/
def sanitizeLabel (label : String) : String :=
  ⟨pyStrip (label.data.map (fun c => if c = '/' then '-' else c))⟩

/-- The participant id drawn from the stem of the first input file name:
`pid.split("_")[-1]` when an underscore is present, the stem itself
otherwise (the fold resets at every underscore, so it returns the last
segment). -/
def participantId (stem : String) : String :=
  ⟨stem.data.foldl (fun acc c => if c = '_' then [] else acc ++ [c]) []⟩

/-- The workbook path
`os.path.join(parent, folder_name, f"{pid} {safe_label}.xlsx")` with
`folder_name = safe_label = sanitizeLabel label`. -/
def excelPath (parent pid label : String) : String :=
  parent ++ "/" ++ sanitizeLabel label ++ "/" ++ pid ++ " " ++
    sanitizeLabel label ++ ".xlsx"

/-- The workbook path the specification claims:
`<output folder>/<label>/<label>_Results.xlsx` (stated from the spec's
words, for comparison with `excelPath`). -/
def claimedResultsPath (parent label : String) : String :=
  parent ++ "/" ++ sanitizeLabel label ++ "/" ++ sanitizeLabel label ++
    "_Results.xlsx"

/-- The four sheet names written to every workbook, in source order. -/
def sheetNames : List String := ["FFT Amplitude", "SNR", "Z Score", "BCA"]

/-- The write step for one label: a workbook (its path and sheet list)
is produced exactly when at least one file contributed and electrode
names were resolved; otherwise no file is written. -/
def writeLabelOutput (parent pid label : String) (validCount : ℕ)
    (electrodeNames : List String) : Option (String × List String) :=
  if 0 < validCount ∧ electrodeNames ≠ [] then
    some (excelPath parent pid label, sheetNames)
  else none

/-!
Channel truncation: step 2 of `preprocess_raw` (drop channels above the
configured index while preserving every channel whose name equals the
stimulus-channel name exactly).
-/

/-- Order-preserving first-occurrence deduplication
(`dict.fromkeys`), with an accumulator of names already seen. -/
def dedupFirstAux : List String → List String → List String
  | [], _ => []
  | x :: xs, seen =>
    if x ∈ seen then dedupFirstAux xs seen
    else x :: dedupFirstAux xs (x :: seen)

/-- Order-preserving first-occurrence deduplication. -/
def dedupFirst (l : List String) : List String := dedupFirstAux l []

/-- The `to_keep` list: the first `keep` channel names plus every
channel named exactly `stim`, first occurrences only. -/
def keepSet (names : List String) (stim : String) (keep : ℕ) : List String :=
  dedupFirst (names.take keep ++ names.filter (fun c => c = stim))

/-- The channel-truncation step: when `0 < keep < len(names)`, keep the
first `keep` channels plus every channel named exactly `stim` (dropping
the rest, order preserved); otherwise the channel list is unchanged. -/
def truncateChannels (names : List String) (stim : String) (keep : ℕ) :
    List String :=
  if 0 < keep ∧ keep < names.length then
    names.filter (fun c => c ∈ keepSet names stim keep)
  else names

/-!
Kurtosis-based channel rejection: the z-scoring and flagging logic of
step 5 of `preprocess_raw`.  `s` stands for the value `np.std(k)`
computed by the source; the claim theorems take the hypothesis that `s`
is the non-negative square root of the population variance of `k`.
-/

/-- The literal `1e-9` guarding the kurtosis z-score division
(idealised as the exact rational). -/
def KEPS : ℚ := 1 / 10 ^ 9

/-- The channels flagged bad by kurtosis rejection: when the
cross-channel standard deviation exceeds `1e-9`, the channels whose
absolute z-score `(k_i - mean k) / s` exceeds the threshold; otherwise
no channel at all (and the division is never formed). -/
def kurtosisFlags (names : List String) (k : List ℚ) (s thresh : ℚ) :
    List String :=
  if KEPS < s then
    ((names.zip k).filter
      (fun p => thresh < |(p.2 - qMean k) / s|)).map Prod.fst
  else []

/-!
Worker lifecycle: the state of the two background threads and the
enabled/disabled state of the two launch buttons.  `startHandler`
embeds the guards of `start_processing` (which also disables both
buttons before launching), `detectHandler` the guard of
`detect_and_show_event_ids` (which disables the controls with the
start button left as is).
-/

/-- GUI/worker state: whether each background thread is alive and
whether each launch button is enabled. -/
structure AppState where
  procAlive : Bool
  detAlive : Bool
  detectEnabled : Bool
  startEnabled : Bool
deriving DecidableEq

/-- The `start_processing` request handler: rejected (state unchanged)
while the processing worker is alive or while the detection worker is
alive; otherwise both buttons are disabled and the processing worker
starts. -/
def startHandler (s : AppState) : AppState :=
  if s.procAlive then s
  else if s.detAlive then s
  else { s with procAlive := true, detectEnabled := false, startEnabled := false }

/-- The `detect_and_show_event_ids` request handler: rejected only while
another detection is alive; otherwise the detection worker starts (the
controls except the start button are disabled).  The handler contains no
check of the processing worker. -/
def detectHandler (s : AppState) : AppState :=
  if s.detAlive then s
  else { s with detAlive := true, detectEnabled := false }

/-- End of a processing run (`_finalize_processing`): the worker is gone
and all controls are re-enabled. -/
def procFinish (s : AppState) : AppState :=
  { s with procAlive := false, detectEnabled := true, startEnabled := true }

/-- End of a detection run: the worker is gone and the controls are
re-enabled with the start button left as is. -/
def detFinish (s : AppState) : AppState :=
  { s with detAlive := false, detectEnabled := true }

/-- The GUI transition relation: a button click can only happen while
its button is enabled; a worker can only finish while it is alive. -/
inductive Step : AppState → AppState → Prop
  | clickStart (s : AppState) (h : s.startEnabled = true) : Step s (startHandler s)
  | clickDetect (s : AppState) (h : s.detectEnabled = true) : Step s (detectHandler s)
  | finishProc (s : AppState) (h : s.procAlive = true) : Step s (procFinish s)
  | finishDet (s : AppState) (h : s.detAlive = true) : Step s (detFinish s)

/-- The initial state: no worker alive, both buttons enabled. -/
def initState : AppState := ⟨false, false, true, true⟩

/-- States reachable from the initial state through GUI transitions. -/
inductive Reachable : AppState → Prop
  | init : Reachable initState
  | step {s t : AppState} : Reachable s → Step s t → Reachable t

/-!
The per-file loop of `_processing_thread_func`: recoverable exceptions
are logged and the loop continues (the `finally` block still emits the
progress message); a `MemoryError` emits an error message, and the
`return` ends the loop (the `finally` blocks still emit that file's
progress message and the terminal done message) — no result message is
sent and no later file is touched.  Log messages are omitted from the
model.
-/

/-- Outcome of processing one file inside the per-file `try`. -/
inductive FileOutcome
  | ok
  | recoverable
  | memError
deriving DecidableEq

/-- Messages the worker can enqueue (log messages omitted; the result
message carries the indices of the files whose epochs were kept). -/
inductive Msg
  | progress (i : ℕ)
  | error
  | result (contributed : List ℕ)
  | done
deriving DecidableEq

/-- The worker loop from file index `i` with the contributions
accumulated so far. -/
def runLoop : List FileOutcome → ℕ → List ℕ → List Msg
  | [], _, acc => [Msg.result acc, Msg.done]
  | FileOutcome.ok :: rest, i, acc =>
    Msg.progress (i + 1) :: runLoop rest (i + 1) (acc ++ [i])
  | FileOutcome.recoverable :: rest, i, acc =>
    Msg.progress (i + 1) :: runLoop rest (i + 1) acc
  | FileOutcome.memError :: _, i, _ =>
    [Msg.error, Msg.progress (i + 1), Msg.done]

/-- The full message sequence of one batch run. -/
def processBatch (files : List FileOutcome) : List Msg := runLoop files 0 []

/-- The indices (counting from `i`) of the files that contribute
epochs: exactly the `ok` files. -/
def okIdxFrom : List FileOutcome → ℕ → List ℕ
  | [], _ => []
  | FileOutcome.ok :: rest, i => i :: okIdxFrom rest (i + 1)
  | _ :: rest, i => okIdxFrom rest (i + 1)

/-!
The kurtosis rejection stage's exception handler (`preprocess_raw`
step 5): `orig_bads` is copied before the `try` block; `inner` stands
for the body, which either completes with a new bad-channel list or
raises with the list in some partially mutated state (the `Except.error`
payload); the handler restores the saved copy, and the pipeline
continues with average referencing either way.
-/

/-- Result of `preprocess_raw` after the rejection stage: the final
bad-channel list and whether the average-reference step ran. -/
structure PreprocOutcome where
  bads : List String
  avgRefApplied : Bool
deriving DecidableEq

/-- The guarded kurtosis stage: on success the body's bad-channel list
stands; on an exception the saved `origBads` is restored, discarding any
partial mutation. -/
def kurtosisRejectStage (origBads : List String)
    (inner : List String → Except (List String) (List String)) : List String :=
  match inner origBads with
  | Except.ok newBads => newBads
  | Except.error _ => origBads

/-- The tail of `preprocess_raw` from the rejection stage on: the
average-reference step runs after the stage whether or not the stage
raised. -/
def preprocessTail (origBads : List String)
    (inner : List String → Except (List String) (List String)) : PreprocOutcome :=
  ⟨kurtosisRejectStage origBads inner, true⟩

/-! ## Shared helper lemmas -/

/-- The target-frequency list has 15 entries: `np.arange` computes
`ceil((18.0 - 1.2) / 1.2)` in binary64 arithmetic, and the quotient
rounds up to `14.000000000000002`. -/
theorem length_TARGET_FREQUENCIES : TARGET_FREQUENCIES.length = 15 := by
  have h : targetFreqsDy.length = 15 := by decide
  simpa [TARGET_FREQUENCIES] using h

/-- The last target frequency is exactly the binary64 number 18, not
16.8: the arithmetic-progression endpoint overshoots. -/
theorem last_TARGET_FREQUENCIES : TARGET_FREQUENCIES.getLastD 0 = 18 := by
  have h : targetFreqsDy.getLast? = some ⟨5066549580791808, -48⟩ := by decide
  have hq : TARGET_FREQUENCIES.getLast? = some (Dy.toRat ⟨5066549580791808, -48⟩) := by
    rw [TARGET_FREQUENCIES, List.getLast?_map, h]
    rfl
  rw [List.getLastD_eq_getLast?, hq, Option.getD_some]
  norm_num [Dy.toRat]

/-! ## C1 -/

/-- C1 counterexample: the fixed target-frequency list does not contain
13 values — it contains 15, and its last element is 18 Hz (the
`np.arange(1.2, 16.8 + 1.2, 1.2)` endpoint overshoots in binary64
arithmetic). -/
theorem c1_count_is_15_not_13 :
    TARGET_FREQUENCIES.length = 15 ∧ TARGET_FREQUENCIES.length ≠ 13 ∧
    TARGET_FREQUENCIES.getLastD 0 = 18 := by
  refine ⟨length_TARGET_FREQUENCIES, ?_, last_TARGET_FREQUENCIES⟩
  rw [length_TARGET_FREQUENCIES]
  omega

/-- C1 (amended): the fixed target-frequency list is
`np.arange(1.2, 16.8 + 1.2, 1.2)`, which holds 15 values (1.2 to 16.8
in steps of 1.2 plus an overshoot value of 18.0); for every (file,
label) input each of the four output metric matrices has shape
[retained-channel-count × 15], and all four share an identical shape. -/
theorem c1_metric_shape (sqrtFn : ℚ → ℚ) (nch : ℕ) (freqs : List ℚ)
    (fftVals : ℕ → ℕ → ℚ) :
    (computeMetrics sqrtFn nch freqs fftVals).fft.map List.length =
      List.replicate nch 15 ∧
    (computeMetrics sqrtFn nch freqs fftVals).snr.map List.length =
      List.replicate nch 15 ∧
    (computeMetrics sqrtFn nch freqs fftVals).z.map List.length =
      List.replicate nch 15 ∧
    (computeMetrics sqrtFn nch freqs fftVals).bca.map List.length =
      List.replicate nch 15 ∧
    TARGET_FREQUENCIES.length = 15 := by
  refine ⟨?_, ?_, ?_, ?_, length_TARGET_FREQUENCIES⟩ <;>
    simp [computeMetrics, List.map_map, Function.comp_def,
      length_TARGET_FREQUENCIES, List.map_const', List.length_range]

/-! ## C2 -/

/-- C2 counterexample: the noise neighbourhood does not exclude the bins
immediately adjacent to the target bin on both sides — for target bin 20
in a 100-bin spectrum, bins 21 and 22 (immediately above) are included,
while bins 19 and 18 (immediately below) and the target itself are
excluded. -/
theorem c2_upper_adjacent_bins_included :
    (21 : ℤ) ∈ noiseIdx 20 100 ∧ (22 : ℤ) ∈ noiseIdx 20 100 ∧
    (19 : ℤ) ∉ noiseIdx 20 100 ∧ (18 : ℤ) ∉ noiseIdx 20 100 ∧
    (20 : ℤ) ∉ noiseIdx 20 100 := by decide

/-- C2 (amended): the noise neighbourhood of a target bin consists of
the bins within 12 of it on each side, clipped to the valid bin range,
excluding the target bin itself and the two bins immediately below it
(`t_bin - 1` and `t_bin - 2`) — the bins immediately above are kept —
and whenever fewer than 4 usable neighbour bins remain the noise mean
and noise std are recorded as exactly zero. -/
theorem c2_noise_neighborhood :
    (∀ (tbin : ℤ) (n : ℕ) (i : ℤ),
      i ∈ noiseIdx tbin n ↔
        tbin - 12 ≤ i ∧ i ≤ tbin + 12 ∧ 0 ≤ i ∧ i < (n : ℤ) ∧
        i ≠ tbin - 2 ∧ i ≠ tbin - 1 ∧ i ≠ tbin) ∧
    (∀ (sqrtFn : ℚ → ℚ) (amp : ℕ → ℚ) (idx : List ℤ),
      idx.length < 4 → noiseStats sqrtFn amp idx = (0, 0)) := by
  constructor
  · intro tbin n i
    constructor
    · intro hmem
      rw [noiseIdx, List.mem_filter] at hmem
      obtain ⟨hmap, hcond⟩ := hmem
      rw [List.mem_map] at hmap
      obtain ⟨j, hj, hje⟩ := hmap
      rw [List.mem_range] at hj
      rw [decide_eq_true_eq] at hcond
      subst hje
      omega
    · intro h
      rw [noiseIdx, List.mem_filter]
      constructor
      · rw [List.mem_map]
        refine ⟨(i - (tbin - 12)).toNat, List.mem_range.mpr ?_, ?_⟩ <;> omega
      · rw [decide_eq_true_eq]
        omega
  · intro sqrtFn amp idx h
    rw [noiseStats, if_neg]
    omega

/-- C2 witness: bin 21 is in the neighbourhood of target bin 20, and a
3-bin neighbourhood records zero noise statistics. -/
theorem c2_noise_neighborhood_witness :
    (21 : ℤ) ∈ noiseIdx 20 100 ∧
    noiseStats (fun q => q) (fun _ => 1) [3, 4, 5] = (0, 0) := by
  constructor
  · exact (c2_noise_neighborhood.1 20 100 21).mpr (by decide)
  · exact c2_noise_neighborhood.2 _ _ _ (by decide)

/-! ## C4 -/

/-- C4 counterexample: the workbook for condition label `A` of a run
whose first input file is `SC_P14.bdf` is written to
`out/A/P14 A.xlsx`, not to the claimed `out/A/A_Results.xlsx`. -/
theorem c4_results_filename_differs :
    excelPath "out" (participantId "SC_P14") "A" = "out/A/P14 A.xlsx" ∧
    claimedResultsPath "out" "A" = "out/A/A_Results.xlsx" ∧
    excelPath "out" (participantId "SC_P14") "A" ≠
      claimedResultsPath "out" "A" := by decide

/-- C4 (amended): for every condition label with at least one
contributing file (and a resolved electrode-name list), the results
workbook is written at `<output folder>/<sanitized label>/<participant
id> <sanitized label>.xlsx`, and it contains exactly four sheets, one
per metric. -/
theorem c4_workbook_path_and_sheets (parent pid label : String)
    (validCount : ℕ) (electrodeNames : List String)
    (h1 : 0 < validCount) (h2 : electrodeNames ≠ []) :
    writeLabelOutput parent pid label validCount electrodeNames =
      some (excelPath parent pid label, sheetNames) ∧
    sheetNames.length = 4 := by
  rw [writeLabelOutput, if_pos ⟨h1, h2⟩]
  exact ⟨rfl, rfl⟩

/-- C4 witness: a label with two contributing files gets a workbook at
the modelled path with four sheets. -/
theorem c4_workbook_witness :
    (0 < 2 ∧ (["Cz"] : List String) ≠ []) ∧
    (writeLabelOutput "out" "P14" "A" 2 ["Cz"] =
      some (excelPath "out" "P14" "A", sheetNames) ∧
    sheetNames.length = 4) :=
  ⟨⟨by decide, by decide⟩,
    c4_workbook_path_and_sheets "out" "P14" "A" 2 ["Cz"] (by decide) (by decide)⟩

/-! ## C5 -/

/-- C5 counterexample: a detection request reaching the handler while
the processing worker is alive (and the detect button enabled) is not
rejected — the handler starts a second worker, after which both workers
are alive. -/
theorem c5_detect_not_rejected_during_processing :
    (detectHandler ⟨true, false, true, true⟩).procAlive = true ∧
    (detectHandler ⟨true, false, true, true⟩).detAlive = true ∧
    detectHandler ⟨true, false, true, true⟩ ≠ ⟨true, false, true, true⟩ := by
  decide

/-- C5 (amended): a start-processing request is rejected while either
worker is alive, and a detection request is rejected while another
detection is alive; a detection request while the processing worker runs
is not guarded in the handler, but is prevented because the detect
button is disabled for the whole run — so along every GUI-reachable
sequence of events the two workers are never alive simultaneously. -/
theorem c5_worker_exclusion :
    (∀ s : AppState, s.procAlive = true → startHandler s = s) ∧
    (∀ s : AppState, s.detAlive = true → startHandler s = s) ∧
    (∀ s : AppState, s.detAlive = true → detectHandler s = s) ∧
    (∀ s : AppState, Reachable s →
      ¬(s.procAlive = true ∧ s.detAlive = true)) := by
  have pres : ∀ s t : AppState, Step s t →
      (s.procAlive = true → s.detAlive = false ∧ s.detectEnabled = false) →
      (t.procAlive = true → t.detAlive = false ∧ t.detectEnabled = false) := by
    intro s t hstep ih
    cases hstep with
    | clickStart h =>
      rcases s with ⟨p, d, de, se⟩
      cases p <;> cases d <;> simp_all [startHandler]
    | clickDetect h =>
      rcases s with ⟨p, d, de, se⟩
      cases p <;> cases d <;> simp_all [detectHandler]
    | finishProc h =>
      simp [procFinish]
    | finishDet h =>
      rcases s with ⟨p, d, de, se⟩
      cases p <;> cases d <;> simp_all [detFinish]
  have inv : ∀ s : AppState, Reachable s →
      (s.procAlive = true → s.detAlive = false ∧ s.detectEnabled = false) := by
    intro s hr
    induction hr with
    | init => intro h; simp [initState] at h
    | step hr hstep ih => exact pres _ _ hstep ih
  refine ⟨?_, ?_, ?_, ?_⟩
  · intro s h; simp [startHandler, h]
  · intro s h
    rcases s with ⟨p, d, de, se⟩
    cases p <;> simp_all [startHandler]
  · intro s h; simp [detectHandler, h]
  · intro s hr h
    rcases inv s hr h.1 with ⟨hd, _⟩
    rw [h.2] at hd
    simp at hd

/-- C5 witness: a start request during a detection run is rejected, and
the initial state is reachable with no two workers alive. -/
theorem c5_worker_exclusion_witness :
    ((⟨false, true, true, true⟩ : AppState).detAlive = true ∧
      startHandler ⟨false, true, true, true⟩ = ⟨false, true, true, true⟩) ∧
    (Reachable initState ∧
      ¬(initState.procAlive = true ∧ initState.detAlive = true)) :=
  ⟨⟨rfl, c5_worker_exclusion.2.1 _ rfl⟩,
    ⟨Reachable.init, c5_worker_exclusion.2.2.2 _ Reachable.init⟩⟩

/-! ## C9 -/

/-- Helper: truncating the batch at the first memory error — the loop
messages of `pre ++ memError :: rest` equal those of
`pre ++ [memError]` for any `rest`, for every loop position. -/
theorem runLoop_memError_truncates (pre : List FileOutcome)
    (rest : List FileOutcome) (hpre : FileOutcome.memError ∉ pre) :
    ∀ (i : ℕ) (acc : List ℕ),
      runLoop (pre ++ FileOutcome.memError :: rest) i acc =
        runLoop (pre ++ [FileOutcome.memError]) i acc := by
  induction pre with
  | nil => intro i acc; rfl
  | cons f pre ih =>
    intro i acc
    have hf : f ≠ FileOutcome.memError := fun h => hpre (h ▸ List.mem_cons_self f pre)
    have hpre2 : FileOutcome.memError ∉ pre := fun h => hpre (List.mem_cons_of_mem f h)
    cases f with
    | ok => simpa [runLoop] using ih hpre2 (i + 1) (acc ++ [i])
    | recoverable => simpa [runLoop] using ih hpre2 (i + 1) acc
    | memError => exact absurd rfl hf

/-- Helper: in a run that hits a memory error, the error message is
emitted and no result message is ever sent. -/
theorem runLoop_memError_msgs (pre rest : List FileOutcome)
    (hpre : FileOutcome.memError ∉ pre) :
    ∀ (i : ℕ) (acc : List ℕ),
      Msg.error ∈ runLoop (pre ++ FileOutcome.memError :: rest) i acc ∧
      ∀ l, Msg.result l ∉ runLoop (pre ++ FileOutcome.memError :: rest) i acc := by
  induction pre with
  | nil =>
    intro i acc
    refine ⟨List.mem_cons_self _ _, ?_⟩
    intro l hl
    simp [runLoop] at hl
  | cons f pre ih =>
    intro i acc
    have hf : f ≠ FileOutcome.memError := fun h => hpre (h ▸ List.mem_cons_self f pre)
    have hpre2 : FileOutcome.memError ∉ pre := fun h => hpre (List.mem_cons_of_mem f h)
    cases f with
    | ok =>
      obtain ⟨h1, h2⟩ := ih hpre2 (i + 1) (acc ++ [i])
      refine ⟨List.mem_cons_of_mem _ h1, ?_⟩
      intro l hl
      rcases List.mem_cons.mp hl with h | h
      · exact Msg.noConfusion h
      · exact h2 l h
    | recoverable =>
      obtain ⟨h1, h2⟩ := ih hpre2 (i + 1) acc
      refine ⟨List.mem_cons_of_mem _ h1, ?_⟩
      intro l hl
      rcases List.mem_cons.mp hl with h | h
      · exact Msg.noConfusion h
      · exact h2 l h
    | memError => exact absurd rfl hf

/-- Helper: the ok-index list of a batch headed by an ok file. -/
theorem okIdxFrom_cons_ok (rest : List FileOutcome) (i : ℕ) :
    okIdxFrom (FileOutcome.ok :: rest) i = i :: okIdxFrom rest (i + 1) := rfl

/-- Helper: the ok-index list of a batch headed by a recoverable file. -/
theorem okIdxFrom_cons_rec (rest : List FileOutcome) (i : ℕ) :
    okIdxFrom (FileOutcome.recoverable :: rest) i = okIdxFrom rest (i + 1) := rfl

/-- Helper: the ok-index list of a batch headed by a memory error. -/
theorem okIdxFrom_cons_mem (rest : List FileOutcome) (i : ℕ) :
    okIdxFrom (FileOutcome.memError :: rest) i = okIdxFrom rest (i + 1) := rfl

/-- Helper: a run with no memory error reaches the end of the batch,
emitting the result message (the accumulator extended with the indices
of the ok files) and the done message, and no error message. -/
theorem runLoop_no_memError (files : List FileOutcome)
    (hok : FileOutcome.memError ∉ files) :
    ∀ (i : ℕ) (acc : List ℕ),
      Msg.result (acc ++ okIdxFrom files i) ∈ runLoop files i acc ∧
      Msg.done ∈ runLoop files i acc ∧
      Msg.error ∉ runLoop files i acc := by
  induction files with
  | nil =>
    intro i acc
    refine ⟨?_, ?_, ?_⟩
    · simp [runLoop, okIdxFrom]
    · simp [runLoop]
    · simp [runLoop]
  | cons f rest ih =>
    intro i acc
    have hf : f ≠ FileOutcome.memError := fun h => hok (h ▸ List.mem_cons_self f rest)
    have hok2 : FileOutcome.memError ∉ rest := fun h => hok (List.mem_cons_of_mem f h)
    cases f with
    | ok =>
      obtain ⟨h1, h2, h3⟩ := ih hok2 (i + 1) (acc ++ [i])
      have he : acc ++ okIdxFrom (FileOutcome.ok :: rest) i =
          acc ++ [i] ++ okIdxFrom rest (i + 1) := by
        rw [okIdxFrom_cons_ok, List.append_assoc]
        rfl
      refine ⟨?_, ?_, ?_⟩
      · rw [he]
        exact List.mem_cons_of_mem _ h1
      · exact List.mem_cons_of_mem _ h2
      · intro hl
        rcases List.mem_cons.mp hl with h | h
        · exact Msg.noConfusion h
        · exact h3 h
    | recoverable =>
      obtain ⟨h1, h2, h3⟩ := ih hok2 (i + 1) acc
      refine ⟨?_, ?_, ?_⟩
      · rw [okIdxFrom_cons_rec]
        exact List.mem_cons_of_mem _ h1
      · exact List.mem_cons_of_mem _ h2
      · intro hl
        rcases List.mem_cons.mp hl with h | h
        · exact Msg.noConfusion h
        · exact h3 h
    | memError => exact absurd rfl hf

/-- Helper: membership in the ok-index list. -/
theorem mem_okIdxFrom (files : List FileOutcome) :
    ∀ (i j : ℕ), j ∈ okIdxFrom files i ↔
      ∃ p, p < files.length ∧
        files.getD p FileOutcome.memError = FileOutcome.ok ∧ j = i + p := by
  induction files with
  | nil => intro i j; simp [okIdxFrom]
  | cons f rest ih =>
    intro i j
    have hgd0 : ∀ d : FileOutcome, (f :: rest).getD 0 d = f := fun _ => rfl
    have hgds : ∀ (p : ℕ) (d : FileOutcome),
        (f :: rest).getD (p + 1) d = rest.getD p d := fun _ _ => rfl
    cases f with
    | ok =>
      rw [okIdxFrom_cons_ok, List.mem_cons, ih (i + 1) j]
      constructor
      · rintro (rfl | ⟨p, hp, hgd, rfl⟩)
        · exact ⟨0, by simp, rfl, by omega⟩
        · exact ⟨p + 1, by simp [hp], by rw [hgds]; exact hgd, by omega⟩
      · rintro ⟨p, hp, hgd, rfl⟩
        cases p with
        | zero => left; omega
        | succ p =>
          right
          rw [hgds] at hgd
          exact ⟨p, by simpa using hp, hgd, by omega⟩
    | recoverable =>
      rw [okIdxFrom_cons_rec, ih (i + 1) j]
      constructor
      · rintro ⟨p, hp, hgd, rfl⟩
        exact ⟨p + 1, by simp [hp], by rw [hgds]; exact hgd, by omega⟩
      · rintro ⟨p, hp, hgd, rfl⟩
        cases p with
        | zero => rw [hgd0] at hgd; exact absurd hgd (by decide)
        | succ p =>
          rw [hgds] at hgd
          exact ⟨p, by simpa using hp, hgd, by omega⟩
    | memError =>
      rw [okIdxFrom_cons_mem, ih (i + 1) j]
      constructor
      · rintro ⟨p, hp, hgd, rfl⟩
        exact ⟨p + 1, by simp [hp], by rw [hgds]; exact hgd, by omega⟩
      · rintro ⟨p, hp, hgd, rfl⟩
        cases p with
        | zero => rw [hgd0] at hgd; exact absurd hgd (by decide)
        | succ p =>
          rw [hgds] at hgd
          exact ⟨p, by simpa using hp, hgd, by omega⟩

/-- C9: within the per-file loop, a recoverable per-file error only
drops that file's contribution (the batch continues: with no memory
error the run emits a result listing exactly the successfully processed
files, followed by done, and no error message), whereas a MemoryError
aborts the run: an error message is emitted, no result is ever sent,
and the messages are identical whatever files followed — no subsequent
file is processed. -/
theorem c9_per_file_error_policy :
    (∀ pre rest : List FileOutcome, FileOutcome.memError ∉ pre →
      processBatch (pre ++ FileOutcome.memError :: rest) =
        processBatch (pre ++ [FileOutcome.memError])) ∧
    (∀ pre rest : List FileOutcome, FileOutcome.memError ∉ pre →
      Msg.error ∈ processBatch (pre ++ FileOutcome.memError :: rest) ∧
      ∀ l, Msg.result l ∉ processBatch (pre ++ FileOutcome.memError :: rest)) ∧
    (∀ files : List FileOutcome, FileOutcome.memError ∉ files →
      Msg.result (okIdxFrom files 0) ∈ processBatch files ∧
      Msg.done ∈ processBatch files ∧
      Msg.error ∉ processBatch files ∧
      (∀ j, j ∈ okIdxFrom files 0 ↔
        j < files.length ∧
          files.getD j FileOutcome.memError = FileOutcome.ok)) := by
  refine ⟨?_, ?_, ?_⟩
  · intro pre rest hpre
    exact runLoop_memError_truncates pre rest hpre 0 []
  · intro pre rest hpre
    exact runLoop_memError_msgs pre rest hpre 0 []
  · intro files hok
    obtain ⟨h1, h2, h3⟩ := runLoop_no_memError files hok 0 []
    refine ⟨by simpa using h1, h2, h3, ?_⟩
    intro j
    rw [mem_okIdxFrom files 0 j]
    constructor
    · rintro ⟨p, hp, hgd, rfl⟩
      rw [Nat.zero_add]
      exact ⟨hp, hgd⟩
    · rintro ⟨hj, hgd⟩
      exact ⟨j, hj, hgd, by omega⟩

/-- C9 witness: in the batch [ok, memError, ok] the run is cut short
with an error; in the batch [ok, recoverable, ok] it completes with
files 0 and 2 contributing. -/
theorem c9_per_file_error_policy_witness :
    (FileOutcome.memError ∉ [FileOutcome.ok] ∧
      processBatch [FileOutcome.ok, FileOutcome.memError, FileOutcome.ok] =
        processBatch [FileOutcome.ok, FileOutcome.memError]) ∧
    (FileOutcome.memError ∉
        [FileOutcome.ok, FileOutcome.recoverable, FileOutcome.ok] ∧
      Msg.result (okIdxFrom
          [FileOutcome.ok, FileOutcome.recoverable, FileOutcome.ok] 0) ∈
        processBatch [FileOutcome.ok, FileOutcome.recoverable, FileOutcome.ok]) :=
  ⟨⟨by decide,
      c9_per_file_error_policy.1 [FileOutcome.ok] [FileOutcome.ok] (by decide)⟩,
    ⟨by decide,
      (c9_per_file_error_policy.2.2
        [FileOutcome.ok, FileOutcome.recoverable, FileOutcome.ok]
        (by decide)).1⟩⟩

/-! ## C6 -/

/-- Helper: membership in the deduplication loop. -/
theorem mem_dedupFirstAux (a : String) :
    ∀ (l seen : List String),
      a ∈ dedupFirstAux l seen ↔ a ∈ l ∧ a ∉ seen := by
  intro l
  induction l with
  | nil => intro seen; simp [dedupFirstAux]
  | cons x xs ih =>
    intro seen
    by_cases hx : x ∈ seen
    · rw [dedupFirstAux, if_pos hx, ih]
      constructor
      · rintro ⟨h1, h2⟩
        exact ⟨List.mem_cons_of_mem _ h1, h2⟩
      · rintro ⟨h1, h2⟩
        rcases List.mem_cons.mp h1 with rfl | h1
        · exact absurd hx h2
        · exact ⟨h1, h2⟩
    · rw [dedupFirstAux, if_neg hx, List.mem_cons, ih]
      constructor
      · rintro (rfl | ⟨h1, h2⟩)
        · exact ⟨List.mem_cons_self _ _, hx⟩
        · refine ⟨List.mem_cons_of_mem _ h1, fun hs => h2 ?_⟩
          exact List.mem_cons_of_mem _ hs
      · rintro ⟨h1, h2⟩
        by_cases hax : a = x
        · exact Or.inl hax
        · rcases List.mem_cons.mp h1 with rfl | h1
          · exact absurd rfl hax
          · refine Or.inr ⟨h1, fun hs => ?_⟩
            rcases List.mem_cons.mp hs with rfl | hs
            · exact hax rfl
            · exact h2 hs

/-- Helper: deduplication preserves membership. -/
theorem mem_dedupFirst (a : String) (l : List String) :
    a ∈ dedupFirst l ↔ a ∈ l := by
  rw [dedupFirst, mem_dedupFirstAux]
  simp

/-- Helper: membership in the `to_keep` list, given that the stimulus
channel occurs among the names. -/
theorem mem_keepSet (names : List String) (stim : String) (keep : ℕ)
    (hmem : stim ∈ names) (c : String) :
    c ∈ keepSet names stim keep ↔ c ∈ names.take keep ∨ c = stim := by
  rw [keepSet, mem_dedupFirst, List.mem_append, List.mem_filter]
  constructor
  · rintro (h | ⟨h1, h2⟩)
    · exact Or.inl h
    · exact Or.inr (of_decide_eq_true h2)
  · rintro (h | rfl)
    · exact Or.inl h
    · exact Or.inr ⟨hmem, decide_eq_true rfl⟩

/-- Helper: filtering a duplicate-free list for one present name yields
exactly that name. -/
theorem filter_eq_singleton_of_nodup {l : List String} {a : String}
    (hnd : l.Nodup) (ha : a ∈ l) :
    l.filter (fun c => decide (c = a)) = [a] := by
  induction l with
  | nil => cases ha
  | cons x xs ih =>
    rcases List.nodup_cons.mp hnd with ⟨hx, hxs⟩
    rcases List.mem_cons.mp ha with rfl | ha2
    · rw [List.filter_cons_of_pos (by simp)]
      have hnil : xs.filter (fun c => decide (c = a)) = [] := by
        rw [List.filter_eq_nil_iff]
        intro c hc
        simp only [decide_eq_true_eq]
        rintro rfl
        exact hx hc
      rw [hnil]
    · have hax : x ≠ a := fun h => hx (h ▸ ha2)
      rw [List.filter_cons_of_neg (by simpa using hax), ih hxs ha2]

/-- C6: for every truncation keep-count `N > 0` applied to a recording
whose (duplicate-free) channel list contains the trigger channel by
exact name: the trigger channel is present in the output regardless of
`N`; the kept-channel count equals `min N original` plus one exactly
when the trigger channel is not among the first `N` channels; and if
`N ≥` the channel count, truncation changes nothing. -/
theorem c6_channel_truncation (names : List String) (stim : String)
    (keep : ℕ) (hmem : stim ∈ names) (hnd : names.Nodup) (hpos : 0 < keep) :
    stim ∈ truncateChannels names stim keep ∧
    (truncateChannels names stim keep).length =
      min keep names.length +
        (if stim ∈ names.take keep then 0 else 1) ∧
    (names.length ≤ keep → truncateChannels names stim keep = names) := by
  by_cases hlt : keep < names.length
  · have hcond : 0 < keep ∧ keep < names.length := ⟨hpos, hlt⟩
    have hfilter : truncateChannels names stim keep =
        names.filter (fun c => c ∈ keepSet names stim keep) := by
      rw [truncateChannels, if_pos hcond]
    have htake : (names.take keep).filter
        (fun c => decide (c ∈ keepSet names stim keep)) = names.take keep := by
      rw [List.filter_eq_self]
      intro c hc
      exact decide_eq_true ((mem_keepSet names stim keep hmem c).mpr (Or.inl hc))
    have hdisj : ∀ c, c ∈ names.take keep → c ∈ names.drop keep → False := by
      intro c h1 h2
      exact (List.disjoint_take_drop hnd (le_refl keep)) h1 h2
    have hdropnd : (names.drop keep).Nodup :=
      (List.drop_sublist keep names).nodup hnd
    have hdrop : (names.drop keep).filter
        (fun c => decide (c ∈ keepSet names stim keep)) =
        (names.drop keep).filter (fun c => decide (c = stim)) := by
      apply List.filter_congr
      intro c hc
      have : (c ∈ keepSet names stim keep) ↔ (c = stim) := by
        rw [mem_keepSet names stim keep hmem c]
        constructor
        · rintro (h | h)
          · exact absurd hc (fun h2 => hdisj c h h2)
          · exact h
        · exact Or.inr
      exact decide_eq_decide.mpr this
    have hlen2 : (truncateChannels names stim keep).length =
        keep + ((names.drop keep).filter (fun c => decide (c = stim))).length := by
      rw [hfilter]
      generalize hp : (fun c => decide (c ∈ keepSet names stim keep)) = p
        at htake hdrop ⊢
      conv_lhs => rw [← List.take_append_drop keep names]
      rw [List.filter_append, List.length_append, htake, hdrop,
        List.length_take, Nat.min_eq_left (Nat.le_of_lt hlt)]
    refine ⟨?_, ?_, ?_⟩
    · rw [hfilter, List.mem_filter]
      exact ⟨hmem,
        decide_eq_true ((mem_keepSet names stim keep hmem stim).mpr (Or.inr rfl))⟩
    · by_cases hst : stim ∈ names.take keep
      · have hnd2 : stim ∉ names.drop keep := fun h => hdisj stim hst h
        have hnil : (names.drop keep).filter (fun c => decide (c = stim)) = [] := by
          rw [List.filter_eq_nil_iff]
          intro c hc
          simp only [decide_eq_true_eq]
          rintro rfl
          exact hnd2 hc
        rw [hlen2, hnil, if_pos hst]
        simp [Nat.min_eq_left (Nat.le_of_lt hlt)]
      · have hstd : stim ∈ names.drop keep := by
          rcases List.mem_append.mp
            (by rw [List.take_append_drop]; exact hmem :
              stim ∈ names.take keep ++ names.drop keep) with h | h
          · exact absurd h hst
          · exact h
        rw [hlen2, filter_eq_singleton_of_nodup hdropnd hstd, if_neg hst]
        simp [Nat.min_eq_left (Nat.le_of_lt hlt)]
    · intro h
      omega
  · have hnocond : ¬(0 < keep ∧ keep < names.length) := fun h => hlt h.2
    have heq : truncateChannels names stim keep = names := by
      rw [truncateChannels, if_neg hnocond]
    have hlen : names.length ≤ keep := Nat.le_of_not_lt hlt
    have htk : names.take keep = names := List.take_of_length_le hlen
    refine ⟨by rw [heq]; exact hmem, ?_, fun _ => heq⟩
    rw [heq, htk, if_pos hmem]
    omega

/-- C6 witness: four channels, keep-count 2, trigger channel `Status`
listed last: the trigger survives, 3 = min 2 4 + 1 channels are kept,
and keep-count 9 ≥ 4 changes nothing. -/
theorem c6_channel_truncation_witness :
    (("Status" : String) ∈ ["A", "B", "C", "Status"] ∧
      (["A", "B", "C", "Status"] : List String).Nodup ∧ 0 < 2) ∧
    ("Status" : String) ∈ truncateChannels ["A", "B", "C", "Status"] "Status" 2 ∧
    (truncateChannels ["A", "B", "C", "Status"] "Status" 2).length =
      min 2 (["A", "B", "C", "Status"] : List String).length +
        (if ("Status" : String) ∈ (["A", "B", "C", "Status"] : List String).take 2
          then 0 else 1) ∧
    ((["A", "B", "C", "Status"] : List String).length ≤ 2 →
      truncateChannels ["A", "B", "C", "Status"] "Status" 2 =
        ["A", "B", "C", "Status"]) :=
  ⟨⟨by decide, by decide, by decide⟩,
    c6_channel_truncation ["A", "B", "C", "Status"] "Status" 2
      (by decide) (by decide) (by decide)⟩

/-! ## C7 -/

/-- Helper: element-wise matrix addition preserves shape. -/
theorem hasShape_matAdd {a b : Mat} {r c : ℕ}
    (ha : HasShape a r c) (hb : HasShape b r c) :
    HasShape (matAdd a b) r c := by
  obtain ⟨hal, har⟩ := ha
  obtain ⟨hbl, hbr⟩ := hb
  have hlz : (matAdd a b).length = r := by
    simp only [matAdd, List.length_zipWith]
    omega
  refine ⟨hlz, ?_⟩
  intro i hi
  have hia : i < a.length := by omega
  have hib : i < b.length := by omega
  have hiz : i < (matAdd a b).length := by omega
  rw [List.getD_eq_getElem _ [] hiz]
  simp only [matAdd, List.getElem_zipWith, List.length_zipWith]
  rw [← List.getD_eq_getElem a [] hia, ← List.getD_eq_getElem b [] hib,
    har i hi, hbr i hi, Nat.min_self]

/-- Helper: element-wise matrix addition adds entries inside the
shape. -/
theorem entry_matAdd {a b : Mat} {r c : ℕ}
    (ha : HasShape a r c) (hb : HasShape b r c) {i j : ℕ}
    (hi : i < r) (hj : j < c) :
    entry (matAdd a b) i j = entry a i j + entry b i j := by
  obtain ⟨hal, har⟩ := ha
  obtain ⟨hbl, hbr⟩ := hb
  have hia : i < a.length := by omega
  have hib : i < b.length := by omega
  have hiz : i < (matAdd a b).length := by
    simp only [matAdd, List.length_zipWith]
    omega
  have hja : j < (a.getD i []).length := by rw [har i hi]; omega
  have hjb : j < (b.getD i []).length := by rw [hbr i hi]; omega
  have hjz : j < (List.zipWith (· + ·) (a.getD i []) (b.getD i [])).length := by
    rw [List.length_zipWith]
    omega
  simp only [entry]
  rw [List.getD_eq_getElem _ [] hiz]
  simp only [matAdd, List.getElem_zipWith]
  rw [← List.getD_eq_getElem a [] hia, ← List.getD_eq_getElem b [] hib,
    List.getD_eq_getElem _ 0 hjz, List.getElem_zipWith,
    ← List.getD_eq_getElem _ 0 hja, ← List.getD_eq_getElem _ 0 hjb]

/-- Helper: quadruple addition preserves shape. -/
theorem quadShape_quadAdd {a b : MetricQuad} {r c : ℕ}
    (ha : QuadShape a r c) (hb : QuadShape b r c) :
    QuadShape (quadAdd a b) r c :=
  ⟨hasShape_matAdd ha.1 hb.1, hasShape_matAdd ha.2.1 hb.2.1,
    hasShape_matAdd ha.2.2.1 hb.2.2.1, hasShape_matAdd ha.2.2.2 hb.2.2.2⟩

/-- Helper: dividing a matrix by a count divides each entry inside the
shape. -/
theorem entry_matDivNat {m : Mat} {r c : ℕ} (hm : HasShape m r c)
    (k : ℕ) {i j : ℕ} (hi : i < r) (hj : j < c) :
    entry (matDivNat m k) i j = entry m i j / (k : ℚ) := by
  obtain ⟨hml, hmr⟩ := hm
  have him : i < m.length := by omega
  have himd : i < (matDivNat m k).length := by
    simp only [matDivNat, List.length_map]
    omega
  have hjm : j < (m.getD i []).length := by rw [hmr i hi]; omega
  have hjmd : j < ((m.getD i []).map (fun x => x / (k : ℚ))).length := by
    rw [List.length_map]
    omega
  simp only [entry]
  rw [List.getD_eq_getElem _ [] himd]
  simp only [matDivNat, List.getElem_map]
  rw [← List.getD_eq_getElem m [] him, List.getD_eq_getElem _ 0 hjmd,
    List.getElem_map, ← List.getD_eq_getElem _ 0 hjm]

/-- Helper: a left fold of quadruple addition keeps the shape and sums
each entry of each of the four matrices. -/
theorem foldl_quadAdd_spec (qs : List MetricQuad) :
    ∀ (a : MetricQuad) (r c : ℕ), QuadShape a r c →
      (∀ q ∈ qs, QuadShape q r c) →
      QuadShape (qs.foldl quadAdd a) r c ∧
      ∀ i, i < r → ∀ j, j < c →
        entry (qs.foldl quadAdd a).fft i j =
            entry a.fft i j + (qs.map (fun q => entry q.fft i j)).sum ∧
          entry (qs.foldl quadAdd a).snr i j =
            entry a.snr i j + (qs.map (fun q => entry q.snr i j)).sum ∧
          entry (qs.foldl quadAdd a).z i j =
            entry a.z i j + (qs.map (fun q => entry q.z i j)).sum ∧
          entry (qs.foldl quadAdd a).bca i j =
            entry a.bca i j + (qs.map (fun q => entry q.bca i j)).sum := by
  induction qs with
  | nil =>
    intro a r c ha _
    refine ⟨ha, ?_⟩
    intro i hi j hj
    simp
  | cons q qs ih =>
    intro a r c ha hqs
    have hq : QuadShape q r c := hqs q (List.mem_cons_self _ _)
    have hrest : ∀ x ∈ qs, QuadShape x r c :=
      fun x hx => hqs x (List.mem_cons_of_mem _ hx)
    have hadd : QuadShape (quadAdd a q) r c := quadShape_quadAdd ha hq
    obtain ⟨hsh, hent⟩ := ih (quadAdd a q) r c hadd hrest
    refine ⟨hsh, ?_⟩
    intro i hi j hj
    obtain ⟨e1, e2, e3, e4⟩ := hent i hi j hj
    have hf1 : (quadAdd a q).fft = matAdd a.fft q.fft := rfl
    have hf2 : (quadAdd a q).snr = matAdd a.snr q.snr := rfl
    have hf3 : (quadAdd a q).z = matAdd a.z q.z := rfl
    have hf4 : (quadAdd a q).bca = matAdd a.bca q.bca := rfl
    rw [List.foldl_cons]
    refine ⟨?_, ?_, ?_, ?_⟩
    · rw [e1, hf1, List.map_cons, List.sum_cons,
        entry_matAdd ha.1 hq.1 hi hj]
      ring
    · rw [e2, hf2, List.map_cons, List.sum_cons,
        entry_matAdd ha.2.1 hq.2.1 hi hj]
      ring
    · rw [e3, hf3, List.map_cons, List.sum_cons,
        entry_matAdd ha.2.2.1 hq.2.2.1 hi hj]
      ring
    · rw [e4, hf4, List.map_cons, List.sum_cons,
        entry_matAdd ha.2.2.2 hq.2.2.2 hi hj]
      ring

/-- Helper: the accumulation loop over a state that already holds a sum
only folds the contributing quadruples on top of it. -/
theorem accumFold_aux (files : List (Option MetricQuad)) :
    ∀ (a : MetricQuad) (n : ℕ),
      files.foldl
          (fun st f =>
            match f with
            | none => st
            | some q => accumStep st q)
          (some a, n) =
        (some ((files.filterMap id).foldl quadAdd a),
          n + (files.filterMap id).length) := by
  induction files with
  | nil => intro a n; simp
  | cons f fs ih =>
    intro a n
    cases f with
    | none =>
      have hfm : (List.filterMap id (none :: fs) : List MetricQuad) =
          List.filterMap id fs := by simp
      rw [List.foldl_cons, hfm]
      exact ih a n
    | some q =>
      have hfm : List.filterMap id (some q :: fs) = q :: List.filterMap id fs := by
        simp
      rw [List.foldl_cons, hfm]
      show fs.foldl _ (some (quadAdd a q), n + 1) = _
      rw [ih (quadAdd a q) (n + 1), List.foldl_cons, List.length_cons]
      congr 1
      omega

/-- Helper: the accumulator after the loop, by the shape of the list of
contributing quadruples. -/
theorem accumFold_eq (files : List (Option MetricQuad)) :
    accumFold files =
      match files.filterMap id with
      | [] => (none, 0)
      | q :: qs => (some (qs.foldl quadAdd q), qs.length + 1) := by
  rw [accumFold]
  induction files with
  | nil => rfl
  | cons f fs ih =>
    cases f with
    | none =>
      have hfm : (List.filterMap id (none :: fs) : List MetricQuad) =
          List.filterMap id fs := by simp
      rw [List.foldl_cons, hfm]
      exact ih
    | some q =>
      have hfm : List.filterMap id (some q :: fs) = q :: List.filterMap id fs := by
        simp
      rw [List.foldl_cons, hfm]
      show fs.foldl _ (some q, 1) = _
      rw [accumFold_aux fs q 1]
      congr 1
      omega

/-- C7: for every condition label, the aggregated per-label quadruple
equals the element-wise sum of the per-file metric matrices of the files
that actually contributed, divided by the count of contributing files
(not the batch size); a label with zero contributing files produces no
output and performs no division. -/
theorem c7_label_aggregation (files : List (Option MetricQuad)) (r c : ℕ)
    (hsh : ∀ q ∈ files.filterMap id, QuadShape q r c) :
    (files.filterMap id = [] → aggregateLabel files = none) ∧
    (files.filterMap id ≠ [] →
      ∃ avg : MetricQuad, aggregateLabel files = some avg ∧
        ∀ i, i < r → ∀ j, j < c →
          entry avg.fft i j =
              ((files.filterMap id).map (fun q => entry q.fft i j)).sum /
                ((files.filterMap id).length : ℚ) ∧
            entry avg.snr i j =
              ((files.filterMap id).map (fun q => entry q.snr i j)).sum /
                ((files.filterMap id).length : ℚ) ∧
            entry avg.z i j =
              ((files.filterMap id).map (fun q => entry q.z i j)).sum /
                ((files.filterMap id).length : ℚ) ∧
            entry avg.bca i j =
              ((files.filterMap id).map (fun q => entry q.bca i j)).sum /
                ((files.filterMap id).length : ℚ)) := by
  constructor
  · intro h
    rw [aggregateLabel, accumFold_eq, h]
  · intro h
    obtain ⟨q, qs, hqs⟩ : ∃ q qs, files.filterMap id = q :: qs := by
      cases hfm : files.filterMap id with
      | nil => exact absurd hfm h
      | cons q qs => exact ⟨q, qs, rfl⟩
    have hshq : QuadShape q r c := hsh q (by rw [hqs]; exact List.mem_cons_self _ _)
    have hshqs : ∀ x ∈ qs, QuadShape x r c :=
      fun x hx => hsh x (by rw [hqs]; exact List.mem_cons_of_mem _ hx)
    obtain ⟨hshape, hentries⟩ := foldl_quadAdd_spec qs q r c hshq hshqs
    refine ⟨quadDivNat (qs.foldl quadAdd q) (qs.length + 1), ?_, ?_⟩
    · rw [aggregateLabel, accumFold_eq, hqs]
      show (if 0 < qs.length + 1 then
          some (quadDivNat (List.foldl quadAdd q qs) (qs.length + 1))
        else none) = _
      rw [if_pos (show 0 < qs.length + 1 by omega)]
    · intro i hi j hj
      obtain ⟨e1, e2, e3, e4⟩ := hentries i hi j hj
      rw [hqs, List.map_cons, List.sum_cons, List.map_cons, List.sum_cons,
        List.map_cons, List.sum_cons, List.map_cons, List.sum_cons,
        List.length_cons]
      refine ⟨?_, ?_, ?_, ?_⟩
      · rw [show (quadDivNat (qs.foldl quadAdd q) (qs.length + 1)).fft =
            matDivNat (qs.foldl quadAdd q).fft (qs.length + 1) from rfl,
          entry_matDivNat hshape.1 (qs.length + 1) hi hj, e1]
      · rw [show (quadDivNat (qs.foldl quadAdd q) (qs.length + 1)).snr =
            matDivNat (qs.foldl quadAdd q).snr (qs.length + 1) from rfl,
          entry_matDivNat hshape.2.1 (qs.length + 1) hi hj, e2]
      · rw [show (quadDivNat (qs.foldl quadAdd q) (qs.length + 1)).z =
            matDivNat (qs.foldl quadAdd q).z (qs.length + 1) from rfl,
          entry_matDivNat hshape.2.2.1 (qs.length + 1) hi hj, e3]
      · rw [show (quadDivNat (qs.foldl quadAdd q) (qs.length + 1)).bca =
            matDivNat (qs.foldl quadAdd q).bca (qs.length + 1) from rfl,
          entry_matDivNat hshape.2.2.2 (qs.length + 1) hi hj, e4]

/-- C7 witness: one contributing file and one skipped file — the label
is aggregated from the single contribution; and with no contributing
file at all the label produces no output. -/
theorem c7_label_aggregation_witness :
    (∀ q ∈ ([some ⟨[[2]], [[2]], [[2]], [[2]]⟩, none] :
        List (Option MetricQuad)).filterMap id, QuadShape q 1 1) ∧
    (([none, none] : List (Option MetricQuad)).filterMap id = [] →
      aggregateLabel [none, none] = none) ∧
    (([some ⟨[[2]], [[2]], [[2]], [[2]]⟩, none] :
        List (Option MetricQuad)).filterMap id ≠ [] →
      ∃ avg : MetricQuad, aggregateLabel
          ([some ⟨[[2]], [[2]], [[2]], [[2]]⟩, none] :
            List (Option MetricQuad)) = some avg ∧
        ∀ i, i < 1 → ∀ j, j < 1 →
          entry avg.fft i j =
              ((([some ⟨[[2]], [[2]], [[2]], [[2]]⟩, none] :
                List (Option MetricQuad)).filterMap id).map
                  (fun q => entry q.fft i j)).sum /
                ((([some ⟨[[2]], [[2]], [[2]], [[2]]⟩, none] :
                  List (Option MetricQuad)).filterMap id).length : ℚ) ∧
            entry avg.snr i j =
              ((([some ⟨[[2]], [[2]], [[2]], [[2]]⟩, none] :
                List (Option MetricQuad)).filterMap id).map
                  (fun q => entry q.snr i j)).sum /
                ((([some ⟨[[2]], [[2]], [[2]], [[2]]⟩, none] :
                  List (Option MetricQuad)).filterMap id).length : ℚ) ∧
            entry avg.z i j =
              ((([some ⟨[[2]], [[2]], [[2]], [[2]]⟩, none] :
                List (Option MetricQuad)).filterMap id).map
                  (fun q => entry q.z i j)).sum /
                ((([some ⟨[[2]], [[2]], [[2]], [[2]]⟩, none] :
                  List (Option MetricQuad)).filterMap id).length : ℚ) ∧
            entry avg.bca i j =
              ((([some ⟨[[2]], [[2]], [[2]], [[2]]⟩, none] :
                List (Option MetricQuad)).filterMap id).map
                  (fun q => entry q.bca i j)).sum /
                ((([some ⟨[[2]], [[2]], [[2]], [[2]]⟩, none] :
                  List (Option MetricQuad)).filterMap id).length : ℚ)) :=
  ⟨by decide,
    (c7_label_aggregation [none, none] 1 1 (by decide)).1,
    (c7_label_aggregation
      [some ⟨[[2]], [[2]], [[2]], [[2]]⟩, none] 1 1 (by decide)).2⟩

/-! ## C8 -/

/-- C8: in kurtosis-based channel rejection, given that `s` is the
cross-channel standard deviation of the kurtosis values (the
non-negative square root of their population variance) and that the
channel names are distinct and aligned with the kurtosis values: when
`s` is numerically zero (at most `1e-9`) no channel is flagged and the
z-score division is never executed, and otherwise channel `i` is
flagged exactly when `|(k_i - mean k) / s|` exceeds the configured
threshold. -/
theorem c8_kurtosis_flagging (names : List String) (k : List ℚ)
    (s thresh : ℚ) (hlen : names.length = k.length) (hnd : names.Nodup)
    (hs0 : 0 ≤ s) (hvar : s * s = qVar k) :
    (s ≤ KEPS → kurtosisFlags names k s thresh = []) ∧
    (∀ i, i < names.length →
      (names.getD i "" ∈ kurtosisFlags names k s thresh ↔
        KEPS < s ∧ thresh < |(k.getD i 0 - qMean k) / s|)) := by
  constructor
  · intro h
    rw [kurtosisFlags, if_neg (not_lt.mpr h)]
  · intro i hi
    have hik : i < k.length := hlen ▸ hi
    by_cases hks : KEPS < s
    · rw [kurtosisFlags, if_pos hks]
      have hizip : i < (names.zip k).length := by
        rw [List.length_zip]
        omega
      constructor
      · intro hmemf
        rcases List.mem_map.mp hmemf with ⟨p, hp, hfst⟩
        rcases List.mem_filter.mp hp with ⟨hzip, hcond⟩
        rcases List.mem_iff_getElem.mp hzip with ⟨j, hj, hpe⟩
        have hjn : j < names.length := by
          rw [List.length_zip] at hj
          omega
        have hjk : j < k.length := by
          rw [List.length_zip] at hj
          omega
        subst hpe
        rw [List.getElem_zip] at hfst hcond
        have hgd : names.getD i "" = names.get ⟨i, hi⟩ :=
          List.getD_eq_getElem names "" hi
        rw [hgd] at hfst
        have hij : j = i := by
          have := (List.Nodup.getElem_inj_iff hnd).mp hfst
          exact this
        subst hij
        refine ⟨hks, ?_⟩
        rw [List.getD_eq_getElem k 0 hik]
        exact of_decide_eq_true hcond
      · rintro ⟨-, hcond⟩
        apply List.mem_map.mpr
        refine ⟨(names.zip k)[i], ?_, ?_⟩
        · apply List.mem_filter.mpr
          refine ⟨List.get_mem _ _ hizip, ?_⟩
          rw [List.getElem_zip]
          apply decide_eq_true
          rw [List.getD_eq_getElem k 0 hik] at hcond
          exact hcond
        · rw [List.getElem_zip]
          exact (List.getD_eq_getElem names "" hi).symm
    · rw [kurtosisFlags, if_neg hks]
      simp [hks]

/-- C8 witness: kurtosis values 0 and 2 with mean 1 and standard
deviation 1 over two distinct channels. -/
theorem c8_kurtosis_flagging_witness :
    ((["a", "b"] : List String).length = ([0, 2] : List ℚ).length ∧
      (["a", "b"] : List String).Nodup ∧ (0 : ℚ) ≤ 1 ∧
      (1 : ℚ) * 1 = qVar [0, 2]) ∧
    ((1 : ℚ) ≤ KEPS → kurtosisFlags ["a", "b"] [0, 2] 1 (1/2) = []) ∧
    (∀ i, i < (["a", "b"] : List String).length →
      ((["a", "b"] : List String).getD i "" ∈
          kurtosisFlags ["a", "b"] [0, 2] 1 (1/2) ↔
        KEPS < 1 ∧
          (1/2 : ℚ) < |(([0, 2] : List ℚ).getD i 0 - qMean [0, 2]) / 1|)) := by
  have hv : (1 : ℚ) * 1 = qVar [0, 2] := by
    norm_num [qVar, qMean]
  exact ⟨⟨rfl, by decide, by norm_num, hv⟩,
    c8_kurtosis_flagging ["a", "b"] [0, 2] 1 (1/2) rfl (by decide)
      (by norm_num) hv⟩

/-! ## C3 -/

/-- Helper: a left fold of `max` is at least its initial value. -/
theorem le_foldl_max (l : List ℚ) (a : ℚ) : a ≤ l.foldl max a := by
  induction l generalizing a with
  | nil => exact le_refl a
  | cons x xs ih => exact le_trans (le_max_left a x) (ih (max a x))

/-- Helper: a left fold of `max` bounds every list element. -/
theorem foldl_max_le_of_mem {l : List ℚ} {x : ℚ} (hx : x ∈ l) :
    ∀ a : ℚ, x ≤ l.foldl max a := by
  induction l with
  | nil => cases hx
  | cons y ys ih =>
    intro a
    rcases List.mem_cons.mp hx with rfl | hx2
    · exact le_trans (le_max_right a x) (le_foldl_max ys (max a x))
    · exact ih hx2 (max a y)

/-- Helper: a left fold of `max` is the initial value or a list
element. -/
theorem foldl_max_mem (l : List ℚ) : ∀ a : ℚ,
    l.foldl max a = a ∨ l.foldl max a ∈ l := by
  induction l with
  | nil => intro a; exact Or.inl rfl
  | cons x xs ih =>
    intro a
    rcases ih (max a x) with h | h
    · rcases max_cases a x with ⟨he, -⟩ | ⟨he, -⟩
      · left
        rw [List.foldl_cons, h, he]
      · right
        rw [List.foldl_cons, h, he]
        exact List.mem_cons_self _ _
    · right
      exact List.mem_cons_of_mem _ h

/-- Helper: the local peak is the maximum amplitude over the target bin
and its immediate one-bin neighbours (clipped to the spectrum): it is
attained at such a bin and bounds the amplitude of every such bin. -/
theorem localPeak_spec (amp : ℕ → ℚ) (tbin n : ℕ) (h : tbin < n) :
    (∃ j, j < n ∧ (tbin : ℤ) - 1 ≤ (j : ℤ) ∧ (j : ℤ) ≤ (tbin : ℤ) + 1 ∧
      localPeak amp tbin n = amp j) ∧
    (∀ j, j < n → (tbin : ℤ) - 1 ≤ (j : ℤ) → (j : ℤ) ≤ (tbin : ℤ) + 1 →
      amp j ≤ localPeak amp tbin n) := by
  constructor
  · rcases foldl_max_mem
        ((List.range (min n (tbin + 2) - (tbin - 1))).map
          (fun j => amp (tbin - 1 + j))) (amp (tbin - 1)) with h1 | h1
    · refine ⟨tbin - 1, by omega, by omega, by omega, ?_⟩
      simpa only [localPeak] using h1
    · rcases List.mem_map.mp h1 with ⟨j, hj, hje⟩
      rw [List.mem_range] at hj
      refine ⟨tbin - 1 + j, by omega, by omega, by omega, ?_⟩
      simp only [localPeak]
      exact hje.symm
  · intro j hjn hj1 hj2
    have hjwin : amp j ∈ (List.range (min n (tbin + 2) - (tbin - 1))).map
        (fun j2 => amp (tbin - 1 + j2)) := by
      apply List.mem_map.mpr
      refine ⟨j - (tbin - 1), List.mem_range.mpr (by omega), ?_⟩
      congr 1
      omega
    simp only [localPeak]
    exact foldl_max_le_of_mem hjwin _

/-- C3: at every in-range (channel, target-bin) cell, the amplitude is
the target-bin amplitude; SNR is that amplitude divided by the noise
mean when the mean exceeds `1e-12` and exactly 0 otherwise; Z is (the
maximum amplitude among the target bin and its immediate one-bin
neighbours minus the noise mean) divided by the noise std when the std
exceeds `1e-12` and exactly 0 otherwise; and BCA is the amplitude minus
the noise mean — no division with a near-zero denominator is ever
formed. -/
theorem c3_metric_formulas (sqrtFn : ℚ → ℚ) (freqs : List ℚ)
    (amp : ℕ → ℚ) (tfreq : ℚ)
    (hin : freqs.headD 0 ≤ tfreq ∧ tfreq ≤ freqs.getLastD 0) :
    (metricCell sqrtFn freqs amp tfreq).amp = amp (argminAbs tfreq freqs) ∧
    (EPS < (cellNoise sqrtFn freqs amp tfreq).1 →
      (metricCell sqrtFn freqs amp tfreq).snr =
        amp (argminAbs tfreq freqs) / (cellNoise sqrtFn freqs amp tfreq).1) ∧
    ((cellNoise sqrtFn freqs amp tfreq).1 ≤ EPS →
      (metricCell sqrtFn freqs amp tfreq).snr = 0) ∧
    (EPS < (cellNoise sqrtFn freqs amp tfreq).2 →
      (metricCell sqrtFn freqs amp tfreq).z =
        (localPeak amp (argminAbs tfreq freqs) freqs.length -
            (cellNoise sqrtFn freqs amp tfreq).1) /
          (cellNoise sqrtFn freqs amp tfreq).2) ∧
    ((cellNoise sqrtFn freqs amp tfreq).2 ≤ EPS →
      (metricCell sqrtFn freqs amp tfreq).z = 0) ∧
    (metricCell sqrtFn freqs amp tfreq).bca =
      amp (argminAbs tfreq freqs) - (cellNoise sqrtFn freqs amp tfreq).1 ∧
    (argminAbs tfreq freqs < freqs.length →
      (∃ j, j < freqs.length ∧
        ((argminAbs tfreq freqs : ℕ) : ℤ) - 1 ≤ (j : ℤ) ∧
        (j : ℤ) ≤ ((argminAbs tfreq freqs : ℕ) : ℤ) + 1 ∧
        localPeak amp (argminAbs tfreq freqs) freqs.length = amp j) ∧
      (∀ j, j < freqs.length →
        ((argminAbs tfreq freqs : ℕ) : ℤ) - 1 ≤ (j : ℤ) →
        (j : ℤ) ≤ ((argminAbs tfreq freqs : ℕ) : ℤ) + 1 →
        amp j ≤ localPeak amp (argminAbs tfreq freqs) freqs.length)) := by
  simp only [metricCell, if_pos hin]
  refine ⟨trivial, ?_, ?_, ?_, ?_, trivial, ?_⟩
  · intro h
    rw [if_pos h]
  · intro h
    rw [if_neg (not_lt.mpr h)]
  · intro h
    rw [if_pos h]
  · intro h
    rw [if_neg (not_lt.mpr h)]
  · intro h
    exact localPeak_spec amp _ _ h

/-- C3 witness: a five-bin spectrum with the target 2 Hz in range. -/
theorem c3_metric_formulas_witness :
    (([0, 1, 2, 3, 4] : List ℚ).headD 0 ≤ 2 ∧
      (2 : ℚ) ≤ ([0, 1, 2, 3, 4] : List ℚ).getLastD 0) ∧
    (metricCell (fun q => q) [0, 1, 2, 3, 4] (fun i => (i : ℚ)) 2).bca =
      (fun i => (i : ℚ)) (argminAbs 2 [0, 1, 2, 3, 4]) -
        (cellNoise (fun q => q) [0, 1, 2, 3, 4] (fun i => (i : ℚ)) 2).1 :=
  ⟨⟨by decide, by decide⟩,
    (c3_metric_formulas (fun q => q) [0, 1, 2, 3, 4] (fun i => (i : ℚ)) 2
      ⟨by decide, by decide⟩).2.2.2.2.2.1⟩

/-! ## C10 -/

/-- C10: if the kurtosis rejection stage raises partway through,
`preprocess_raw` restores the bad-channel list to exactly its value
before the stage (discarding any partial mutation carried by the
exception) and still runs the average-reference step. -/
theorem c10_reject_failure_restores_bads (origBads : List String)
    (inner : List String → Except (List String) (List String))
    (mutated : List String) (h : inner origBads = Except.error mutated) :
    preprocessTail origBads inner = ⟨origBads, true⟩ ∧
    kurtosisRejectStage origBads inner = origBads := by
  constructor <;> simp [preprocessTail, kurtosisRejectStage, h]

/-- C10 witness: a stage body that fails after marking channel `X`
leaves the original empty bad list and still average-references. -/
theorem c10_reject_failure_witness :
    ((fun _ : List String =>
        (Except.error ["X"] : Except (List String) (List String))) ["A"] =
      Except.error ["X"]) ∧
    preprocessTail ["A"]
        (fun _ => (Except.error ["X"] : Except (List String) (List String))) =
      ⟨["A"], true⟩ :=
  ⟨rfl,
    (c10_reject_failure_restores_bads ["A"] _ ["X"] rfl).1⟩

end FPVS
